import Mathlib

/-!
Verification of the request-admission/queueing engine, group-response
decision logic, RAG gating policy and text chunking of the
elaya-telegram-llm-bot repository (src/bot.py, src/rag_manager.py),
as a shallow embedding in Lean 4.

Text is modelled as `List Char` (Python `str`), timestamps and float
statistics as `ℚ` (only ordering and exact rational arithmetic of the
source formulas are relied on), Python `int` as `Int`/`Nat`.
-/

namespace ElayaBot

/-- A queued request: `request_data` dict of `RequestQueue.add_to_queue`,
abstracted to an opaque handle `rid` plus the `queued_at` stamp the code
adds on enqueue (bot.py line 133). -/
structure QueuedRequest where
  rid : Nat
  queued_at : ℚ
  deriving DecidableEq, Repr

/-- State of `RequestQueue` (bot.py lines 107-121): construction
parameters, `active_requests`, the `deque`, and the `queue_stats` dict.
`active_requests` is an `Int` because `finish_processing` computes
`max(0, active_requests - 1)` over Python ints. -/
structure QueueState where
  max_concurrent : Nat
  max_queue_size : Nat
  active_requests : Int
  queue : List QueuedRequest
  total_processed : Nat
  total_queued : Nat
  total_rejected : Nat
  avg_wait_time : ℚ
  deriving DecidableEq, Repr

/-- Python `RequestQueue.__init__(max_concurrent, max_queue_size)`
(bot.py lines 110-121). -/
def initState (mc mq : Nat) : QueueState :=
  { max_concurrent := mc
    max_queue_size := mq
    active_requests := 0
    queue := []
    total_processed := 0
    total_queued := 0
    total_rejected := 0
    avg_wait_time := 0 }

/-- Python `RequestQueue.can_process` (bot.py lines 123-125). -/
def can_process (s : QueueState) : Bool :=
  s.active_requests < (s.max_concurrent : Int)

/-- Python `RequestQueue.add_to_queue` (bot.py lines 127-138): if the deque is
full, bump `total_rejected` and return -1; otherwise stamp `queued_at`,
append at the tail, bump `total_queued` and return the length after
insertion (the 1-based position).  `p` is the opaque request payload,
`now` the value of `datetime.now()`. -/
def add_to_queue (s : QueueState) (p : Nat) (now : ℚ) : QueueState × Int :=
  if s.queue.length ≥ s.max_queue_size then
    ({ s with total_rejected := s.total_rejected + 1 }, -1)
  else
    let q' := s.queue ++ [⟨p, now⟩]
    ({ s with queue := q', total_queued := s.total_queued + 1 },
     (q'.length : Int))

/-- Python `RequestQueue.start_processing` (bot.py lines 140-143): increments
`active_requests` unconditionally. -/
def start_processing (s : QueueState) : QueueState :=
  { s with active_requests := s.active_requests + 1 }

/-- Python `RequestQueue.finish_processing` (bot.py lines 145-149):
`active_requests = max(0, active_requests - 1)` and bumps
`total_processed`. -/
def finish_processing (s : QueueState) : QueueState :=
  { s with active_requests := max 0 (s.active_requests - 1)
           total_processed := s.total_processed + 1 }

/-- Python `RequestQueue.get_next_request` (bot.py lines 151-166): pops the head
of the deque if non-empty, computes `wait_time = now - queued_at`, updates
the running mean `avg_wait_time` keyed on `total_processed`, and returns
the popped request; returns none (and leaves the state unchanged) when
the deque is empty. -/
def get_next_request (s : QueueState) (now : ℚ) :
    QueueState × Option QueuedRequest :=
  match s.queue with
  | [] => (s, none)
  | r :: rest =>
    let wait_time : ℚ := now - r.queued_at
    let total := s.total_processed
    let avg' : ℚ :=
      if total > 0 then
        (s.avg_wait_time * total + wait_time) / (total + 1)
      else wait_time
    ({ s with queue := rest, avg_wait_time := avg' }, some r)

/-- A begin/end operation on the queue state (`start_processing` /
`finish_processing`). -/
inductive QOp
  | begin
  | finish
  deriving DecidableEq, Repr

/-- Run a sequence of begin/end operations from a state. -/
def runQOps (ops : List QOp) (s : QueueState) : QueueState :=
  ops.foldl (fun st op =>
    match op with
    | QOp.begin => start_processing st
    | QOp.finish => finish_processing st) s

/-- States reachable from `initState mc mq` when every `start_processing`
is performed only after `can_process` reported a free slot — the
discipline of every call site (bot.py lines 186-190, 958-964,
1008-1013) — while `finish_processing` may happen at any time. -/
inductive GuardedReach (mc mq : Nat) : QueueState → Prop
  | init : GuardedReach mc mq (initState mc mq)
  | begin (s : QueueState) (h : GuardedReach mc mq s)
      (hcan : s.active_requests < (mc : Int)) :
      GuardedReach mc mq (start_processing s)
  | finish (s : QueueState) (h : GuardedReach mc mq s) :
      GuardedReach mc mq (finish_processing s)

/-! ### Text helpers (Python `str` operations over `List Char`) -/

/-- Python string-strip whitespace (the ASCII whitespace characters
`str.strip()` removes). -/
def pws (c : Char) : Bool :=
  c == ' ' || c == '\t' || c == '\n' || c == '\r' ||
  c == '\x0b' || c == '\x0c'

/-- Python `str.strip()`: drop leading and trailing whitespace. -/
def pstrip (l : List Char) : List Char :=
  ((l.dropWhile pws).reverse.dropWhile pws).reverse

/-- Python `str.lower()` (per-character, as used for the ASCII bot
handles compared case-insensitively in the source). -/
def lower (l : List Char) : List Char := l.map Char.toLower

/-- Python `text.rfind(sub, 0, e)`: the largest index `i` with
`i + sub.length ≤ e` at which `sub` occurs in `text`, if any. -/
def rfind (sub text : List Char) (e : Nat) : Option Nat :=
  if sub.length ≤ e then
    ((List.range (e - sub.length + 1)).filter
      (fun i => (text.drop i).take sub.length == sub)).getLast?
  else none

/-- The `split_index` computation of one `split_text` loop iteration
(bot.py lines 576-582): the rightmost paragraph break within the first
`max_length` characters, else the rightmost sentence break, else the
rightmost space; a hard cut at `max_length` when nothing (`-1`) or only
position 0 was found. -/
def split_index_of (text : List Char) (max_length : Nat) : Nat :=
  match (rfind ('\n' :: '\n' :: []) text max_length).or
      ((rfind ('.' :: ' ' :: []) text max_length).or
        (rfind (' ' :: []) text max_length)) with
  | some (i + 1) => i + 1
  | _ => max_length

/-- Python `split_text` (bot.py lines 570-590), one loop iteration per fuel
unit.  While `len(text) > max_length` the code emits the stripped head
`text[:split_index]` and continues on the stripped tail
`text[split_index:]`; the final non-empty remainder is emitted as the
last chunk.  Fuel `text.length` always suffices when `max_length ≥ 1`
(each iteration consumes at least one character); on exhaustion the
remainder is emitted unsplit. -/
def split_text_go : Nat → List Char → Nat → List (List Char)
  | 0, text, _ => if text.isEmpty then [] else [text]
  | fuel + 1, text, max_length =>
    if text.length ≤ max_length then
      (if text.isEmpty then [] else [text])
    else
      pstrip (text.take (split_index_of text max_length)) ::
        split_text_go fuel
          (pstrip (text.drop (split_index_of text max_length))) max_length

/-- Python `split_text(text, max_length)` (bot.py lines 570-590); empty input
returns `[""]`. -/
def split_text (text : List Char) (max_length : Nat) : List (List Char) :=
  if text.isEmpty then [[]]
  else split_text_go text.length text max_length

/-! ### Admission policy (group-response decision, bot.py 237-324) -/

/-- A Telegram message entity: `{type, offset, length}`. -/
structure MessageEntity where
  etype : List Char
  offset : Nat
  length : Nat
  deriving DecidableEq, Repr

/-- The fields of an inbound group message the admission policy reads:
`text`, `entities`, and `reply_to_message` (with the author id of the
replied-to message when `from_user` is present). -/
structure TgMessage where
  text : List Char
  entities : List MessageEntity
  reply_to : Option (Option Int)
  deriving DecidableEq, Repr

/-- Python `message.text[entity.offset : entity.offset + entity.length]`. -/
def mention_text (m : TgMessage) (e : MessageEntity) : List Char :=
  (m.text.drop e.offset).take e.length

/-- Python `is_bot_mentioned` (bot.py lines 237-250).  Here `botUsername` models
`the bot username when the identity attribute is set, else None`; the
Python truthiness test on it rejects both `None` and the empty string. -/
def is_bot_mentioned (botUsername : Option (List Char)) (m : TgMessage) :
    Bool :=
  if m.text.isEmpty then false
  else m.entities.any fun e =>
    e.etype == "mention".toList &&
    (match botUsername with
     | some u => !u.isEmpty && (lower (mention_text m e) == '@' :: lower u)
     | none => false)

/-- Python `is_reply_to_bot` (bot.py lines 252-259).  Here `botId` models
`the bot id when the identity attribute is set, else None`; the Python
truthiness test on it rejects both `None` and `0`. -/
def is_reply_to_bot (botId : Option Int) (m : TgMessage) : Bool :=
  match m.reply_to with
  | some (some uid) =>
    match botId with
    | some b => !(b == 0) && uid == b
    | none => false
  | _ => false

/-- Python `bot username if the identity attribute is set else the empty
string` (bot.py line 282): the bot username defaulted to the empty string when
the identity is unresolved. -/
def usernameOrDefault (bu : Option (List Char)) : List Char :=
  match bu with
  | some u => u
  | none => []

/-- Python `is_question_in_air` (bot.py lines 261-287): non-empty text whose
stripped form ends in `?`, not a reply except to the bot itself, and
containing no mention entity whose span differs from `@bot_username`
(that last filter is skipped entirely when the username is unknown,
since `bot_username` defaults to `""` there and `""` is falsy). -/
def is_question_in_air (botUsername : Option (List Char))
    (botId : Option Int) (m : TgMessage) : Bool :=
  if m.text.isEmpty then false
  else if !((pstrip m.text).getLast? == some '?') then false
  else if m.reply_to.isSome && !(is_reply_to_bot botId m) then false
  else if m.entities.any (fun e =>
      e.etype == "mention".toList &&
      (!(usernameOrDefault botUsername).isEmpty &&
        !(lower (mention_text m e) ==
          '@' :: lower (usernameOrDefault botUsername))))
  then false
  else true

/-- The `GROUP_RESPONSE_MODE` values `"all" | "mention_only" | "smart"`
(bot.py line 56; the shipped configuration is `smart`). -/
inductive GroupMode
  | all
  | mention_only
  | smart
  deriving DecidableEq, Repr

/-- Python `should_respond_in_group` (bot.py lines 289-314). -/
def should_respond_in_group (mode : GroupMode)
    (botUsername : Option (List Char)) (botId : Option Int)
    (m : TgMessage) : Bool :=
  match mode with
  | GroupMode.all => true
  | GroupMode.mention_only =>
      is_bot_mentioned botUsername m || is_reply_to_bot botId m
  | GroupMode.smart =>
      if is_bot_mentioned botUsername m then true
      else if is_reply_to_bot botId m then true
      else if is_question_in_air botUsername botId m then true
      else false

/-- Python `re.compile(re.escape(pat), re.IGNORECASE).sub(empty, text)`: removes
every non-overlapping case-insensitive occurrence of the literal pattern
`pat`, scanning left to right (Python `re.sub` with the default
`count=0`).  One fuel unit per scanned position; fuel `text.length`
always suffices (each step consumes at least one character when a
non-empty pattern matches, and exactly one otherwise). -/
def subAllLC_go (pat : List Char) : Nat → List Char → List Char
  | _, [] => []
  | 0, text => text
  | fuel + 1, c :: rest =>
    if pat ≠ [] ∧ lower ((c :: rest).take pat.length) = lower pat then
      subAllLC_go pat fuel ((c :: rest).drop pat.length)
    else
      c :: subAllLC_go pat fuel rest

/-- The case-insensitive remove-all-occurrences operation itself. -/
def subAllLC (pat text : List Char) : List Char :=
  subAllLC_go pat text.length text

/-- Python `remove_bot_mention` (bot.py lines 316-324): unknown/empty username
returns the text unchanged; otherwise all case-insensitive occurrences
of `@username` are removed and the result is stripped of leading and
trailing whitespace. -/
def remove_bot_mention (text : List Char)
    (botUsername : Option (List Char)) : List Char :=
  match botUsername with
  | none => text
  | some u => if u.isEmpty then text else pstrip (subAllLC ('@' :: u) text)

/-- Whether `pat` occurs (case-insensitively) anywhere in `l`. -/
def occursCI (pat : List Char) : List Char → Bool
  | [] => lower (([] : List Char).take pat.length) == lower pat
  | c :: rest =>
    lower ((c :: rest).take pat.length) == lower pat || occursCI pat rest

/-! ### Relevance gate (RAG gating, bot.py 846-863, rag_manager.py) -/

/-- A ranked passage as produced by `RAGManager.search`
(rag_manager.py lines 237-244): content, source file, relevance score
(lower = more relevant). -/
structure Passage where
  content : List Char
  source : List Char
  score : ℚ
  deriving DecidableEq, Repr

/-- Python `RAG_RELEVANCE_THRESHOLD = 1.5` (bot.py line 46). -/
def RAG_RELEVANCE_THRESHOLD : ℚ := 3 / 2

/-- Python `RAGManager.search` result as seen by the caller
(rag_manager.py lines 214-251): any exception (and the uninitialized
case) yields the empty list; `raw = none` models the error path. -/
def search_result (raw : Option (List Passage)) : List Passage :=
  match raw with
  | none => []
  | some l => l

/-- The `use_rag` decision of `process_message` (bot.py lines 846-863):
with RAG enabled and always-search configured, augment iff the search
returned a non-empty list whose first (best) score is strictly below
`RAG_RELEVANCE_THRESHOLD`. -/
def use_rag_decision (ragEnabled ragAlwaysSearch : Bool)
    (relevant_docs : List Passage) : Bool :=
  if ragEnabled && ragAlwaysSearch then
    match relevant_docs with
    | [] => false
    | d :: _ => decide (d.score < RAG_RELEVANCE_THRESHOLD)
  else false

/-- The document list actually passed to `call_ollama_with_context`
(bot.py lines 882-892): the full `relevant_docs` when `use_rag`, nothing
in plain mode. -/
def context_docs (ragEnabled ragAlwaysSearch : Bool)
    (relevant_docs : List Passage) : List Passage :=
  if use_rag_decision ragEnabled ragAlwaysSearch relevant_docs then
    relevant_docs
  else []

/-! ### Enqueue/dequeue traces (for the FIFO claim) -/

/-- An enqueue or dequeue operation, carrying the wall-clock time at
which it happens. -/
inductive TOp
  | enq (t : ℚ)
  | deq (t : ℚ)

/-- Trace state: the queue state, a counter stamping each accepted
request with its arrival index, and the log of dequeued arrival
indices in dequeue order. -/
structure TraceState where
  qs : QueueState
  nextId : Nat
  dequeuedIds : List Nat

/-- One enqueue/dequeue step: enqueue via `add_to_queue` (the arrival
counter advances only when the request was accepted), dequeue via
`get_next_request` (logging the arrival index of the popped request). -/
def traceStep (ts : TraceState) (op : TOp) : TraceState :=
  match op with
  | TOp.enq t =>
    let r := add_to_queue ts.qs ts.nextId t
    if r.2 = -1 then { ts with qs := r.1 }
    else { ts with qs := r.1, nextId := ts.nextId + 1 }
  | TOp.deq t =>
    let r := get_next_request ts.qs t
    match r.2 with
    | none => { ts with qs := r.1 }
    | some req =>
      { ts with
          qs := r.1
          dequeuedIds := ts.dequeuedIds ++ [req.rid] }

/-- Run a sequence of enqueue/dequeue operations from a fresh queue. -/
def runTrace (mc mq : Nat) (ops : List TOp) : TraceState :=
  ops.foldl traceStep
    { qs := initState mc mq, nextId := 0, dequeuedIds := [] }

/-- The arrival indices recorded in a trace state: the dequeued ones in
dequeue order, then the ones still waiting in queue order. -/
def traceIds (ts : TraceState) : List Nat :=
  ts.dequeuedIds ++ ts.qs.queue.map QueuedRequest.rid

/-- Trace invariant: arrival indices strictly increase along
`traceIds`, and all of them lie below the arrival counter. -/
def traceInv (ts : TraceState) : Prop :=
  List.Chain' (· < ·) (traceIds ts) ∧ ∀ x ∈ traceIds ts, x < ts.nextId

/-! ### Helper lemmas -/

lemma add_to_queue_length_le (s : QueueState) (p : Nat) (now : ℚ)
    (h : s.queue.length ≤ s.max_queue_size) :
    (add_to_queue s p now).1.queue.length ≤ s.max_queue_size ∧
    (add_to_queue s p now).1.max_queue_size = s.max_queue_size := by
  unfold add_to_queue
  by_cases hge : s.queue.length ≥ s.max_queue_size
  · rw [if_pos hge]
    exact ⟨h, rfl⟩
  · rw [if_neg hge]
    refine ⟨?_, rfl⟩
    simp only [List.length_append, List.length_cons, List.length_nil]
    omega

lemma enqueue_fold_bound (mc mq : Nat) (reqs : List (Nat × ℚ)) :
    (reqs.foldl (fun st pr => (add_to_queue st pr.1 pr.2).1)
      (initState mc mq)).queue.length ≤ mq := by
  suffices h : ∀ (reqs : List (Nat × ℚ)) (s : QueueState),
      s.queue.length ≤ s.max_queue_size → s.max_queue_size = mq →
      (reqs.foldl (fun st pr => (add_to_queue st pr.1 pr.2).1)
        s).queue.length ≤ mq by
    exact h reqs (initState mc mq) (by simp [initState]) rfl
  intro reqs
  induction reqs with
  | nil =>
    intro s h1 h2
    simpa using h2 ▸ h1
  | cons a rest ih =>
    intro s h1 h2
    simp only [List.foldl_cons]
    have hb := add_to_queue_length_le s a.1 a.2 h1
    exact ih _ (hb.2 ▸ hb.1) (hb.2.trans h2)

lemma traceStep_inv (ts : TraceState) (op : TOp) (h : traceInv ts) :
    traceInv (traceStep ts op) := by
  obtain ⟨hch, hbd⟩ := h
  simp only [traceIds] at hch hbd
  cases op with
  | enq t =>
    by_cases hfull : ts.qs.queue.length ≥ ts.qs.max_queue_size
    · have hstep : traceStep ts (TOp.enq t) =
          { ts with qs :=
            { ts.qs with total_rejected := ts.qs.total_rejected + 1 } } := by
        simp [traceStep, add_to_queue, hfull]
      rw [hstep]
      refine ⟨?_, ?_⟩
      · simpa [traceIds] using hch
      · simpa [traceIds] using hbd
    · have hstep : traceStep ts (TOp.enq t) =
          { ts with
              qs := { ts.qs with
                queue := ts.qs.queue ++ [⟨ts.nextId, t⟩]
                total_queued := ts.qs.total_queued + 1 }
              nextId := ts.nextId + 1 } := by
        simp [traceStep, add_to_queue, hfull]
        omega
      rw [hstep]
      have hids : ∀ qlist : List QueuedRequest,
          (qlist ++ [({ rid := ts.nextId, queued_at := t } : QueuedRequest)]).map
              QueuedRequest.rid =
            qlist.map QueuedRequest.rid ++ [ts.nextId] := by
        intro qlist
        simp
      refine ⟨?_, ?_⟩
      · simp only [traceIds, hids, ← List.append_assoc]
        refine List.chain'_append.2 ⟨hch, List.chain'_singleton _, ?_⟩
        intro x hx y hy
        simp only [List.head?_cons, Option.mem_def, Option.some.injEq] at hy
        subst hy
        exact hbd x (List.mem_of_mem_getLast? hx)
      · intro x hx
        simp only [traceIds, hids, ← List.append_assoc] at hx
        show x < ts.nextId + 1
        rcases List.mem_append.1 hx with hx | hx
        · exact Nat.lt_succ_of_lt (hbd x hx)
        · simp only [List.mem_singleton] at hx
          omega
  | deq t =>
    cases hq : ts.qs.queue with
    | nil =>
      have hstep : traceStep ts (TOp.deq t) = ts := by
        simp [traceStep, get_next_request, hq]
      rw [hstep]
      refine ⟨?_, ?_⟩
      · simpa [traceIds] using hch
      · simpa [traceIds] using hbd
    | cons r rest =>
      rw [hq] at hch hbd
      have hstep : (traceStep ts (TOp.deq t)).qs.queue = rest ∧
          (traceStep ts (TOp.deq t)).dequeuedIds =
            ts.dequeuedIds ++ [r.rid] ∧
          (traceStep ts (TOp.deq t)).nextId = ts.nextId := by
        refine ⟨?_, ?_, ?_⟩ <;> simp [traceStep, get_next_request, hq]
      refine ⟨?_, ?_⟩
      · simp only [traceIds, hstep.1, hstep.2.1, List.append_assoc,
          List.singleton_append]
        simpa using hch
      · intro x hx
        simp only [traceIds, hstep.1, hstep.2.1, hstep.2.2,
          List.append_assoc, List.singleton_append] at hx ⊢
        exact hbd x (by simpa using hx)

lemma traceInv_runTrace (mc mq : Nat) (ops : List TOp) :
    traceInv (runTrace mc mq ops) := by
  have key : ∀ (ops : List TOp) (ts : TraceState), traceInv ts →
      traceInv (ops.foldl traceStep ts) := by
    intro ops
    induction ops with
    | nil =>
      intro ts h
      simpa using h
    | cons op rest ih =>
      intro ts h
      exact ih _ (traceStep_inv ts op h)
  refine key ops _ ?_
  constructor <;> simp [traceIds, initState]

/-- The non-whitespace characters of a text, in order. -/
def filterNW (l : List Char) : List Char := l.filter (fun c => !pws c)

lemma filter_dropWhile_not (p : Char → Bool) (l : List Char) :
    (l.dropWhile p).filter (fun c => !p c) = l.filter (fun c => !p c) := by
  induction l with
  | nil => rfl
  | cons c rest ih =>
    by_cases h : p c = true
    · simp [List.dropWhile_cons, h, ih]
    · simp [List.dropWhile_cons, h]

lemma filterNW_pstrip (l : List Char) : filterNW (pstrip l) = filterNW l := by
  unfold filterNW pstrip
  rw [List.filter_reverse, filter_dropWhile_not, List.filter_reverse,
    List.reverse_reverse, filter_dropWhile_not]

lemma filterNW_append (a b : List Char) :
    filterNW (a ++ b) = filterNW a ++ filterNW b := by
  unfold filterNW
  exact List.filter_append _ _

lemma pstrip_sublist (l : List Char) : List.Sublist (pstrip l) l := by
  unfold pstrip
  have h1 : List.Sublist ((l.dropWhile pws).reverse.dropWhile pws)
      (l.dropWhile pws).reverse := List.dropWhile_sublist _
  have h2 := h1.reverse
  rw [List.reverse_reverse] at h2
  exact h2.trans (List.dropWhile_sublist _)

lemma pstrip_length_le (l : List Char) : (pstrip l).length ≤ l.length :=
  (pstrip_sublist l).length_le

lemma rfind_bound (sub text : List Char) (e i : Nat)
    (h : rfind sub text e = some i) : i + sub.length ≤ e := by
  unfold rfind at h
  by_cases hle : sub.length ≤ e
  · rw [if_pos hle] at h
    have hmem := List.mem_of_mem_getLast? h
    have hr := List.mem_range.1 (List.mem_filter.1 hmem).1
    omega
  · rw [if_neg hle] at h
    exact absurd h (by simp)

lemma split_index_bounds (text : List Char) (max_length : Nat)
    (h1 : 1 ≤ max_length) :
    1 ≤ split_index_of text max_length ∧
      split_index_of text max_length ≤ max_length := by
  unfold split_index_of
  rcases hor : (rfind ('\n' :: '\n' :: []) text max_length).or
      ((rfind ('.' :: ' ' :: []) text max_length).or
        (rfind (' ' :: []) text max_length)) with _ | i
  · exact ⟨h1, le_refl _⟩
  · cases i with
    | zero => exact ⟨h1, le_refl _⟩
    | succ j =>
      refine ⟨Nat.succ_le_succ (Nat.zero_le j), ?_⟩
      show j + 1 ≤ max_length
      rcases Option.or_eq_some.1 hor with hf | ⟨equation, hrest⟩
      · have := rfind_bound _ _ _ _ hf
        simp only [List.length_cons, List.length_nil] at this
        omega
      · rcases Option.or_eq_some.1 hrest with hf | ⟨h3, hf⟩
        · have := rfind_bound _ _ _ _ hf
          simp only [List.length_cons, List.length_nil] at this
          omega
        · have := rfind_bound _ _ _ _ hf
          simp only [List.length_cons, List.length_nil] at this
          omega

lemma split_text_go_roundtrip (max_length : Nat) :
    ∀ (fuel : Nat) (text : List Char),
      filterNW ((split_text_go fuel text max_length).flatten) =
        filterNW text := by
  intro fuel
  induction fuel with
  | zero =>
    intro text
    by_cases h : text.isEmpty
    · have ht : text = [] := List.isEmpty_iff.1 h
      subst ht
      simp [split_text_go]
    · simp [split_text_go, h]
  | succ fuel ih =>
    intro text
    rw [split_text_go]
    by_cases hle : text.length ≤ max_length
    · rw [if_pos hle]
      by_cases h : text.isEmpty
      · have ht : text = [] := List.isEmpty_iff.1 h
        subst ht
        simp
      · simp [h]
    · rw [if_neg hle]
      rw [List.flatten_cons, filterNW_append, filterNW_pstrip, ih,
        filterNW_pstrip, ← filterNW_append, List.take_append_drop]

lemma split_text_go_bound (max_length : Nat) (h1 : 1 ≤ max_length) :
    ∀ (fuel : Nat) (text : List Char), text.length ≤ fuel →
      ∀ c ∈ split_text_go fuel text max_length, c.length ≤ max_length := by
  intro fuel
  induction fuel with
  | zero =>
    intro text hlen c hc
    have ht : text = [] := List.length_eq_zero.1 (Nat.le_zero.1 hlen)
    subst ht
    simp [split_text_go] at hc
  | succ fuel ih =>
    intro text hlen c hc
    rw [split_text_go] at hc
    by_cases hle : text.length ≤ max_length
    · rw [if_pos hle] at hc
      by_cases hemp : text.isEmpty
      · rw [if_pos hemp] at hc
        simp at hc
      · rw [if_neg hemp] at hc
        simp only [List.mem_singleton] at hc
        subst hc
        exact hle
    · rw [if_neg hle] at hc
      obtain ⟨hsi1, hsi2⟩ := split_index_bounds text max_length h1
      rcases List.mem_cons.1 hc with hc | hc
      · subst hc
        calc (pstrip (text.take (split_index_of text max_length))).length
            ≤ (text.take (split_index_of text max_length)).length :=
              pstrip_length_le _
          _ ≤ split_index_of text max_length := text.length_take_le _
          _ ≤ max_length := hsi2
      · refine ih (pstrip (text.drop (split_index_of text max_length))) ?_ c hc
        have hd := List.length_drop (split_index_of text max_length) text
        have hp := pstrip_length_le (text.drop (split_index_of text max_length))
        omega

lemma subAllLC_go_sublist (pat : List Char) :
    ∀ (fuel : Nat) (text : List Char),
      List.Sublist (subAllLC_go pat fuel text) text := by
  intro fuel
  induction fuel with
  | zero =>
    intro text
    cases text with
    | nil => exact List.Sublist.refl _
    | cons c rest => exact List.Sublist.refl _
  | succ fuel ih =>
    intro text
    cases text with
    | nil => exact List.Sublist.refl _
    | cons c rest =>
      rw [subAllLC_go]
      by_cases h : pat ≠ [] ∧
          lower ((c :: rest).take pat.length) = lower pat
      · rw [if_pos h]
        exact (ih _).trans (List.drop_sublist _ _)
      · rw [if_neg h]
        exact List.Sublist.cons₂ c (ih rest)

lemma subAllLC_go_no_occurrence (pat : List Char) :
    ∀ (fuel : Nat) (text : List Char), text.length ≤ fuel →
      occursCI pat text = false → subAllLC_go pat fuel text = text := by
  intro fuel
  induction fuel with
  | zero =>
    intro text hlen hocc
    have ht : text = [] := List.length_eq_zero.1 (Nat.le_zero.1 hlen)
    subst ht
    rfl
  | succ fuel ih =>
    intro text hlen hocc
    cases text with
    | nil => rfl
    | cons c rest =>
      rw [occursCI, Bool.or_eq_false_iff] at hocc
      have h1 : ¬ lower ((c :: rest).take pat.length) = lower pat := by
        simpa [beq_eq_false_iff_ne] using hocc.1
      rw [subAllLC_go, if_neg (fun hc => h1 hc.2)]
      have hr : rest.length ≤ fuel := by
        simp only [List.length_cons] at hlen
        omega
      rw [ih rest hr hocc.2]

lemma isEmpty_false_of_ne_nil {u : List Char} (hu : u ≠ []) :
    u.isEmpty = false := by
  cases u with
  | nil => exact absurd rfl hu
  | cons a l => rfl

lemma is_bot_mentioned_iff (u : List Char) (hu : u ≠ []) (m : TgMessage) :
    is_bot_mentioned (some u) m = true ↔
      ∃ e ∈ m.entities, e.etype = "mention".toList ∧
        lower (mention_text m e) = '@' :: lower u := by
  have hie := isEmpty_false_of_ne_nil hu
  unfold is_bot_mentioned
  by_cases ht : m.text.isEmpty
  · rw [if_pos ht]
    have htxt : m.text = [] := List.isEmpty_iff.1 ht
    simp [htxt, mention_text, lower]
  · rw [if_neg ht]
    rw [List.any_eq_true]
    constructor
    · rintro ⟨e, he, hcond⟩
      simp only [Bool.and_eq_true, beq_iff_eq, Bool.not_eq_true',
        hie] at hcond
      exact ⟨e, he, hcond.1, hcond.2.2⟩
    · rintro ⟨e, he, h1, h2⟩
      refine ⟨e, he, ?_⟩
      simp [h1, h2, hie]

lemma is_reply_to_bot_iff (i : Int) (hi : i ≠ 0) (m : TgMessage) :
    is_reply_to_bot (some i) m = true ↔ m.reply_to = some (some i) := by
  unfold is_reply_to_bot
  rcases hrt : m.reply_to with _ | mu
  · simp
  · rcases mu with _ | uid
    · simp
    · simp [hi]

lemma is_question_in_air_iff (u : List Char) (hu : u ≠ []) (i : Int)
    (hi : i ≠ 0) (m : TgMessage) :
    is_question_in_air (some u) (some i) m = true ↔
      ((pstrip m.text).getLast? = some '?'
       ∧ (m.reply_to = none ∨ m.reply_to = some (some i))
       ∧ ¬ ∃ e ∈ m.entities, e.etype = "mention".toList ∧
           lower (mention_text m e) ≠ '@' :: lower u) := by
  have hie := isEmpty_false_of_ne_nil hu
  unfold is_question_in_air
  by_cases ht : m.text.isEmpty
  · rw [if_pos ht]
    have htxt : m.text = [] := List.isEmpty_iff.1 ht
    simp [htxt, pstrip]
  · rw [if_neg ht]
    by_cases hq : (pstrip m.text).getLast? = some '?'
    · rw [if_neg (by simp [hq])]
      by_cases hrep : (m.reply_to.isSome &&
          !(is_reply_to_bot (some i) m)) = true
      · rw [if_pos hrep]
        simp only [Bool.and_eq_true, Bool.not_eq_true',
          Option.isSome_iff_exists] at hrep
        obtain ⟨⟨r, hr⟩, hnb⟩ := hrep
        refine iff_of_false (by simp) ?_
        rintro ⟨-, hrep2, -⟩
        rcases hrep2 with hrep2 | hrep2
        · rw [hrep2] at hr
          exact Option.noConfusion hr
        · rw [← (is_reply_to_bot_iff i hi m)] at hrep2
          rw [hrep2] at hnb
          exact Bool.noConfusion hnb
      · rw [if_neg hrep]
        simp only [Bool.and_eq_true, Bool.not_eq_true', not_and,
          Option.isSome_iff_exists] at hrep
        by_cases hany : (m.entities.any (fun e =>
            e.etype == "mention".toList &&
            (!(usernameOrDefault (some u)).isEmpty &&
              !(lower (mention_text m e) ==
                '@' :: lower (usernameOrDefault (some u)))))) = true
        · rw [if_pos hany]
          rw [List.any_eq_true] at hany
          obtain ⟨e, he, hcond⟩ := hany
          simp only [usernameOrDefault, Bool.and_eq_true, beq_iff_eq,
            Bool.not_eq_true', hie, beq_eq_false_iff_ne] at hcond
          refine iff_of_false (by simp) ?_
          rintro ⟨-, -, hno⟩
          exact hno ⟨e, he, hcond.1, hcond.2.2⟩
        · rw [if_neg hany]
          rw [List.any_eq_true] at hany
          push_neg at hany
          refine iff_of_true rfl ⟨hq, ?_, ?_⟩
          · rcases hrt : m.reply_to with _ | r
            · exact Or.inl rfl
            · refine Or.inr ?_
              have hb : is_reply_to_bot (some i) m = true := by
                simpa using hrep ⟨r, hrt⟩
              have h2 := (is_reply_to_bot_iff i hi m).1 hb
              rw [hrt] at h2
              exact h2
          · rintro ⟨e, he, h1, h2⟩
            refine hany e he ?_
            simp only [usernameOrDefault, Bool.and_eq_true, beq_iff_eq,
              Bool.not_eq_true', hie, beq_eq_false_iff_ne]
            exact ⟨h1, trivial, h2⟩
    · rw [if_pos (by simp [hq])]
      exact iff_of_false (by simp) (fun h => hq h.1)

/-! ### Claim theorems -/

/-- C1: `add_to_queue` with `len(waiting) ≥ max_queue_size` returns
REJECTED (-1), increments `total_rejected` by exactly 1 and leaves the
wait list (and everything else) unchanged; otherwise it appends the item
at the tail, increments `total_queued` by 1 and returns the 1-based
position, which equals the wait-list length after insertion; and the
wait list never holds more than `max_queue_size` items — neither across
one call (given the invariant held before) nor across any sequence of
enqueue calls from a fresh queue. -/
theorem add_to_queue_spec (s : QueueState) (p : Nat) (now : ℚ) :
    (s.queue.length ≥ s.max_queue_size →
      add_to_queue s p now =
        ({ s with total_rejected := s.total_rejected + 1 }, -1))
    ∧ (s.queue.length < s.max_queue_size →
      add_to_queue s p now =
        ({ s with
            queue := s.queue ++ [⟨p, now⟩]
            total_queued := s.total_queued + 1 },
          ((s.queue.length + 1 : Nat) : Int))
      ∧ (add_to_queue s p now).2 =
          ((add_to_queue s p now).1.queue.length : Int))
    ∧ (s.queue.length ≤ s.max_queue_size →
      (add_to_queue s p now).1.queue.length ≤ s.max_queue_size)
    ∧ (∀ (mc mq : Nat) (reqs : List (Nat × ℚ)),
      (reqs.foldl (fun st pr => (add_to_queue st pr.1 pr.2).1)
        (initState mc mq)).queue.length ≤ mq) := by
  refine ⟨?_, ?_, ?_, ?_⟩
  · intro h
    unfold add_to_queue
    rw [if_pos h]
  · intro h
    have hne : ¬ s.queue.length ≥ s.max_queue_size := by omega
    constructor
    · unfold add_to_queue
      rw [if_neg hne]
      simp
    · unfold add_to_queue
      rw [if_neg hne]
  · intro h
    exact (add_to_queue_length_le s p now h).1
  · exact enqueue_fold_bound

/-- Witness for C1 at concrete inputs: a successful enqueue into a
queue of capacity 2, and a rejected enqueue into a full queue. -/
theorem add_to_queue_spec_witness :
    add_to_queue (initState 1 2) 7 0 =
      ({ initState 1 2 with
          queue := (initState 1 2).queue ++ [⟨7, 0⟩]
          total_queued := (initState 1 2).total_queued + 1 },
        (((initState 1 2).queue.length + 1 : Nat) : Int)) ∧
    add_to_queue { initState 1 2 with queue := [⟨0, 0⟩, ⟨1, 0⟩] } 7 0 =
      ({ { initState 1 2 with queue := [⟨0, 0⟩, ⟨1, 0⟩] } with
          total_rejected :=
            { initState 1 2 with
                queue := [⟨0, 0⟩, ⟨1, 0⟩] }.total_rejected + 1 }, -1) :=
  ⟨((add_to_queue_spec (initState 1 2) 7 0).2.1 (by decide)).1,
   (add_to_queue_spec { initState 1 2 with queue := [⟨0, 0⟩, ⟨1, 0⟩] }
      7 0).1 (by decide)⟩

/-- C2 counterexample: `start_processing` increments `active_requests`
unconditionally (it performs no capacity check), so the interleaving
`begin; begin` from a fresh queue with `max_concurrent = 1` drives
`active_count` to 2, above `max_concurrent`.  The claimed bound fails
for unrestricted interleavings of begin/end. -/
theorem active_count_counterexample :
    ((initState 1 10).max_concurrent : Int) <
      (runQOps [QOp.begin, QOp.begin] (initState 1 10)).active_requests := by
  decide

/-- C2 amended: `active_count` never goes negative for any interleaving
of begin/end (because `finish_processing` floors at 0), and it never
exceeds `max_concurrent` provided every `start_processing` happens only
when `active_requests < max_concurrent` — the `can_process` discipline
all call sites follow; an unguarded `begin` can exceed the bound. -/
theorem active_count_bounds (mc mq : Nat) :
    (∀ s : QueueState, GuardedReach mc mq s →
      0 ≤ s.active_requests ∧ s.active_requests ≤ (mc : Int))
    ∧ (∀ ops : List QOp,
      0 ≤ (runQOps ops (initState mc mq)).active_requests) := by
  constructor
  · intro s h
    induction h with
    | init => refine ⟨le_refl 0, ?_⟩; simp [initState]
    | begin s h hcan ih =>
      refine ⟨?_, ?_⟩ <;> simp only [start_processing] <;> omega
    | finish s h ih =>
      refine ⟨?_, ?_⟩ <;> simp only [finish_processing]
      · exact le_max_left 0 _
      · refine max_le ?_ ?_
        · exact Int.natCast_nonneg mc
        · have := ih.2
          omega
  · have key : ∀ (ops : List QOp) (s : QueueState),
        0 ≤ s.active_requests → 0 ≤ (runQOps ops s).active_requests := by
      intro ops
      induction ops with
      | nil =>
        intro s h
        simpa [runQOps] using h
      | cons op rest ih =>
        intro s h
        have hstep : runQOps (op :: rest) s =
            runQOps rest (match op with
              | QOp.begin => start_processing s
              | QOp.finish => finish_processing s) := rfl
        rw [hstep]
        apply ih
        cases op with
        | begin => simp only [start_processing]; omega
        | finish =>
          simp only [finish_processing]
          exact le_max_left 0 _
    intro ops
    exact key ops _ (le_refl 0)

/-- Witness for C2 (amended) at concrete inputs: one guarded begin from
a fresh queue with `max_concurrent = 1` keeps the bounds, and any
interleaving (here a bare end) keeps `active_count` non-negative. -/
theorem active_count_bounds_witness :
    (0 ≤ (start_processing (initState 1 10)).active_requests ∧
      (start_processing (initState 1 10)).active_requests ≤ ((1 : Nat) : Int))
    ∧ 0 ≤ (runQOps [QOp.finish] (initState 1 10)).active_requests :=
  ⟨(active_count_bounds 1 10).1 _
      (GuardedReach.begin _ GuardedReach.init (by decide)),
   (active_count_bounds 1 10).2 [QOp.finish]⟩

/-- C3: in smart mode, with the bot identity known (non-empty username
`u`, truthy id `i`), `should_respond_in_group` returns true iff (1) some
mention span equals `@u` case-insensitively, or (2) the message is a
reply to a message authored by `i`, or (3) the trimmed text ends in `?`,
the message is not a reply except to the bot itself, and no mention span
resolves to a handle other than `@u`; each condition is independently
sufficient. -/
theorem should_respond_smart_iff (u : List Char) (hu : u ≠ []) (i : Int)
    (hi : i ≠ 0) (m : TgMessage) :
    should_respond_in_group GroupMode.smart (some u) (some i) m = true ↔
      ((∃ e ∈ m.entities, e.etype = "mention".toList ∧
          lower (mention_text m e) = '@' :: lower u)
       ∨ m.reply_to = some (some i)
       ∨ ((pstrip m.text).getLast? = some '?'
          ∧ (m.reply_to = none ∨ m.reply_to = some (some i))
          ∧ ¬ ∃ e ∈ m.entities, e.etype = "mention".toList ∧
              lower (mention_text m e) ≠ '@' :: lower u)) := by
  have h1 := is_bot_mentioned_iff u hu m
  have h2 := is_reply_to_bot_iff i hi m
  have h3 := is_question_in_air_iff u hu i hi m
  unfold should_respond_in_group
  by_cases hbm : is_bot_mentioned (some u) m = true
  · rw [if_pos hbm]
    exact iff_of_true rfl (Or.inl (h1.1 hbm))
  · rw [if_neg hbm]
    by_cases hrb : is_reply_to_bot (some i) m = true
    · rw [if_pos hrb]
      exact iff_of_true rfl (Or.inr (Or.inl (h2.1 hrb)))
    · rw [if_neg hrb]
      by_cases hqa : is_question_in_air (some u) (some i) m = true
      · rw [if_pos hqa]
        exact iff_of_true rfl (Or.inr (Or.inr (h3.1 hqa)))
      · rw [if_neg hqa]
        refine iff_of_false (by simp) ?_
        rintro (hp | hp | hp)
        · exact hbm (h1.2 hp)
        · exact hrb (h2.2 hp)
        · exact hqa (h3.2 hp)

/-- Witness for C3 at a concrete input: the message `"hi @ElayaBot"`
carrying a mention entity for the span `@ElayaBot`, with the bot
username `elayabot` and id 42, is answered (via the case-insensitive
direct-mention condition). -/
theorem should_respond_smart_iff_witness :
    should_respond_in_group GroupMode.smart (some ("elayabot".toList))
      (some 42)
      { text := "hi @ElayaBot".toList
        entities := [⟨"mention".toList, 3, 9⟩]
        reply_to := none } = true :=
  (should_respond_smart_iff ("elayabot".toList) (by decide) 42 (by decide)
    { text := "hi @ElayaBot".toList
      entities := [⟨"mention".toList, 3, 9⟩]
      reply_to := none }).2
    (Or.inl ⟨⟨"mention".toList, 3, 9⟩, by decide, by decide, by decide⟩)

/-- C9 (implicit): when the bot identity is unresolved
(`bot_username` None or empty), the foreign-mention filter of
`is_question_in_air` is skipped entirely, so any non-reply message
whose trimmed text ends in `?` is classified as an untargeted question,
even if it mentions the handle of some other user. -/
theorem unknown_identity_question (bu : Option (List Char))
    (hbu : bu = none ∨ bu = some []) (bi : Option Int) (m : TgMessage)
    (hr : m.reply_to = none)
    (hq : (pstrip m.text).getLast? = some '?') :
    is_question_in_air bu bi m = true := by
  have htne : ¬ m.text.isEmpty = true := by
    intro h
    have ht : m.text = [] := List.isEmpty_iff.1 h
    rw [ht] at hq
    simp [pstrip] at hq
  unfold is_question_in_air
  rw [if_neg htne, if_neg (by simp [hq])]
  rw [if_neg (by simp [hr])]
  rw [if_neg ?_]
  rcases hbu with h | h <;> subst h <;> simp [usernameOrDefault]

/-- Witness for C9 at a concrete input: `"@bob when?"`, mentioning the
foreign handle `@bob` and not a reply, is still classified as a
question in the air while the bot identity is unknown. -/
theorem unknown_identity_question_witness :
    is_question_in_air none none
      { text := "@bob when?".toList
        entities := [⟨"mention".toList, 0, 4⟩]
        reply_to := none } = true :=
  unknown_identity_question none (Or.inl rfl) none
    { text := "@bob when?".toList
      entities := [⟨"mention".toList, 0, 4⟩]
      reply_to := none } rfl (by decide)

/-- C4: with retrieval enabled and always-search configured, a
non-empty ranked result list leads to augmentation iff the first (best)
score of the first result is strictly below `RAG_RELEVANCE_THRESHOLD = 1.5`; when
it augments, the full ranked list is used; when the top score is at or
above the threshold all candidates are discarded; and an empty search
result (in particular the error path of `RAGManager.search`) never
augments. -/
theorem relevance_gate_spec (d : Passage) (rest : List Passage) :
    (use_rag_decision true true (d :: rest) = true ↔
      d.score < RAG_RELEVANCE_THRESHOLD)
    ∧ (d.score < RAG_RELEVANCE_THRESHOLD →
      context_docs true true (d :: rest) = d :: rest)
    ∧ (RAG_RELEVANCE_THRESHOLD ≤ d.score →
      context_docs true true (d :: rest) = [])
    ∧ use_rag_decision true true (search_result none) = false
    ∧ (∀ ragEnabled ragAlwaysSearch : Bool,
      use_rag_decision ragEnabled ragAlwaysSearch [] = false) := by
  refine ⟨?_, ?_, ?_, ?_, ?_⟩
  · simp [use_rag_decision]
  · intro h
    simp [context_docs, use_rag_decision, h]
  · intro h
    simp [context_docs, use_rag_decision, not_lt.2 h]
  · simp [use_rag_decision, search_result]
  · intro a b
    cases a <;> cases b <;> simp [use_rag_decision]

/-- Witness for C4 at the concrete scores of the spec: top score 1.2 < 1.5
augments with the full candidate list; top score 1.8 discards the
candidates. -/
theorem relevance_gate_spec_witness :
    context_docs true true [⟨[], [], 6 / 5⟩] = [⟨[], [], 6 / 5⟩]
    ∧ context_docs true true [⟨[], [], 9 / 5⟩] = [] :=
  ⟨(relevance_gate_spec ⟨[], [], 6 / 5⟩ []).2.1 (by norm_num [RAG_RELEVANCE_THRESHOLD]),
   (relevance_gate_spec ⟨[], [], 9 / 5⟩ []).2.2.1 (by norm_num [RAG_RELEVANCE_THRESHOLD])⟩

/-- C5 counterexample: `remove_bot_mention` uses `pattern.sub("", text)`
with the default count, which removes ALL case-insensitive occurrences
of `@bot_username`, not only the first: on the text
`"@elayabot hi @elayabot"` with handle `"elayabot"` the code yields
`"hi"`, while the claim (remove only the first occurrence, leave later
occurrences in place) predicts `"hi @elayabot"`. -/
theorem remove_bot_mention_counterexample :
    remove_bot_mention ("@elayabot hi @elayabot".toList)
        (some ("elayabot".toList)) = "hi".toList
    ∧ remove_bot_mention ("@elayabot hi @elayabot".toList)
        (some ("elayabot".toList)) ≠ "hi @elayabot".toList := by
  constructor <;> decide

/-- C5 amended: `remove_bot_mention` removes EVERY non-overlapping
case-insensitive occurrence of `@bot_username` (scanning left to right)
and trims leading/trailing whitespace of the result; for an
unknown/empty handle it returns the text unchanged.  Consequently the
result is always a subsequence of the input, a text with no occurrence
of the pattern is only trimmed, and the two spec examples (and the
multi-occurrence behaviour) hold. -/
theorem remove_bot_mention_amended :
    (∀ text : List Char, remove_bot_mention text none = text)
    ∧ (∀ text : List Char, remove_bot_mention text (some []) = text)
    ∧ remove_bot_mention ("@elayabot what time is it".toList)
        (some ("elayabot".toList)) = "what time is it".toList
    ∧ remove_bot_mention ("hello".toList) (some ([] : List Char)) =
        "hello".toList
    ∧ remove_bot_mention ("@elayabot hi @elayabot".toList)
        (some ("elayabot".toList)) = "hi".toList
    ∧ (∀ u text : List Char, u ≠ [] →
        occursCI ('@' :: u) text = false →
        remove_bot_mention text (some u) = pstrip text)
    ∧ (∀ (bu : Option (List Char)) (text : List Char),
        List.Sublist (remove_bot_mention text bu) text) := by
  refine ⟨fun text => rfl, fun text => rfl, by decide, by decide, by decide,
    ?_, ?_⟩
  · intro u text hu hocc
    show (if u.isEmpty = true then text
      else pstrip (subAllLC ('@' :: u) text)) = pstrip text
    have hne : ¬ u.isEmpty = true := by
      simpa [List.isEmpty_iff] using hu
    rw [if_neg hne]
    unfold subAllLC
    rw [subAllLC_go_no_occurrence ('@' :: u) text.length text
      (le_refl _) hocc]
  · intro bu text
    cases bu with
    | none => exact List.Sublist.refl _
    | some u =>
      show List.Sublist (if u.isEmpty = true then text
        else pstrip (subAllLC ('@' :: u) text)) text
      by_cases h : u.isEmpty
      · rw [if_pos h]
      · rw [if_neg h]
        exact (pstrip_sublist _).trans
          (subAllLC_go_sublist ('@' :: u) text.length text)

/-- Witness for C5 (amended) at a concrete input: a text containing no
occurrence of `@elayabot` is only trimmed of leading/trailing
whitespace. -/
theorem remove_bot_mention_amended_witness :
    remove_bot_mention ("  hello there ".toList)
        (some ("elayabot".toList)) = pstrip ("  hello there ".toList) :=
  remove_bot_mention_amended.2.2.2.2.2.1 ("elayabot".toList)
    ("  hello there ".toList) (by decide) (by decide)

/-- C6: for every sequence of enqueue/dequeue operations from a fresh
queue, the arrival indices along "already dequeued, then still waiting"
are strictly increasing — so dequeues happen in strict FIFO arrival
order and every dequeued item is earlier than everything still waiting;
moreover `get_next_request` returns none on an empty wait list (leaving
the state unchanged) and otherwise pops exactly the head. -/
theorem fifo_dequeue (mc mq : Nat) (ops : List TOp) :
    List.Chain' (· < ·)
      ((runTrace mc mq ops).dequeuedIds ++
        (runTrace mc mq ops).qs.queue.map QueuedRequest.rid)
    ∧ (∀ (s : QueueState) (now : ℚ), s.queue = [] →
      get_next_request s now = (s, none))
    ∧ (∀ (s : QueueState) (now : ℚ) (r : QueuedRequest)
        (rest : List QueuedRequest), s.queue = r :: rest →
      (get_next_request s now).2 = some r ∧
        (get_next_request s now).1.queue = rest) := by
  refine ⟨(traceInv_runTrace mc mq ops).1, ?_, ?_⟩
  · intro s now h
    unfold get_next_request
    rw [h]
  · intro s now r rest h
    unfold get_next_request
    rw [h]
    exact ⟨rfl, rfl⟩

/-- Witness for C6 at concrete inputs: dequeue from an empty fresh
queue returns none, and dequeue from a two-element queue pops the head
and leaves the tail. -/
theorem fifo_dequeue_witness :
    get_next_request (initState 1 10) 0 = (initState 1 10, none)
    ∧ (get_next_request
        { initState 1 10 with queue := [⟨0, 0⟩, ⟨1, 2⟩] } 3).2 = some ⟨0, 0⟩
    ∧ (get_next_request
        { initState 1 10 with queue := [⟨0, 0⟩, ⟨1, 2⟩] } 3).1.queue =
      [⟨1, 2⟩] :=
  ⟨(fifo_dequeue 1 10 []).2.1 (initState 1 10) 0 rfl,
   ((fifo_dequeue 1 10 []).2.2
      { initState 1 10 with queue := [⟨0, 0⟩, ⟨1, 2⟩] } 3 ⟨0, 0⟩
      [⟨1, 2⟩] rfl).1,
   ((fifo_dequeue 1 10 []).2.2
      { initState 1 10 with queue := [⟨0, 0⟩, ⟨1, 2⟩] } 3 ⟨0, 0⟩
      [⟨1, 2⟩] rfl).2⟩

/-- C7: on a non-empty queue, `get_next_request` updates `avg_wait_time`
to `(avg * total_processed + wait_time) / (total_processed + 1)`, where
`wait_time` is the time the dequeued item spent in the queue and
`total_processed` is the processed count at the moment of dequeue; with
empty history (`total_processed = 0`) the new average equals the wait
itself. -/
theorem avg_wait_time_update (s : QueueState) (now : ℚ)
    (r : QueuedRequest) (rest : List QueuedRequest)
    (hq : s.queue = r :: rest) :
    (get_next_request s now).1.avg_wait_time =
      (s.avg_wait_time * (s.total_processed : ℚ) + (now - r.queued_at)) /
        ((s.total_processed : ℚ) + 1)
    ∧ (s.total_processed = 0 →
      (get_next_request s now).1.avg_wait_time = now - r.queued_at) := by
  constructor
  · unfold get_next_request
    rw [hq]
    by_cases h : s.total_processed > 0
    · simp [h]
    · have h0 : s.total_processed = 0 := by omega
      simp [h0]
  · intro h0
    unfold get_next_request
    rw [hq]
    simp [h0]

/-- C8: chunking loses and duplicates no non-whitespace character:
concatenating the chunks of `split_text` in order yields the original
text up to whitespace trimmed at the split boundaries — the
non-whitespace character sequences agree exactly. -/
theorem split_text_roundtrip (text : List Char) (max_length : Nat) :
    filterNW ((split_text text max_length).flatten) = filterNW text := by
  unfold split_text
  by_cases h : text.isEmpty
  · have ht : text = [] := List.isEmpty_iff.1 h
    subst ht
    rfl
  · rw [if_neg h]
    exact split_text_go_roundtrip max_length text.length text

/-- C10: for `max_length ≥ 1`, `split_text` returns a non-empty list of
chunks, each of length at most `max_length`; the empty text yields the
one-element list containing the empty chunk. -/
theorem split_text_bounds (text : List Char) (max_length : Nat)
    (h1 : 1 ≤ max_length) :
    split_text text max_length ≠ []
    ∧ (∀ c ∈ split_text text max_length, c.length ≤ max_length)
    ∧ split_text [] max_length = [[]] := by
  refine ⟨?_, ?_, rfl⟩
  · unfold split_text
    by_cases h : text.isEmpty
    · rw [if_pos h]
      simp
    · rw [if_neg h]
      have hne : text.length ≠ 0 := by
        intro hc
        exact h (by simp [List.length_eq_zero.1 hc])
      rcases hn : text.length with _ | n
      · exact absurd hn hne
      · rw [split_text_go]
        by_cases hle : text.length ≤ max_length
        · rw [if_pos hle, if_neg h]
          simp
        · rw [if_neg hle]
          simp
  · intro c hc
    unfold split_text at hc
    by_cases h : text.isEmpty
    · rw [if_pos h] at hc
      simp only [List.mem_singleton] at hc
      subst hc
      simp
    · rw [if_neg h] at hc
      exact split_text_go_bound max_length h1 text.length text (le_refl _) c hc

/-- Witness for C10 at concrete inputs: chunking a 7-character text
with limit 3 gives a non-empty list of chunks of length at most 3. -/
theorem split_text_bounds_witness :
    split_text ("abcdefg".toList) 3 ≠ []
    ∧ ∀ c ∈ split_text ("abcdefg".toList) 3, c.length ≤ 3 :=
  ⟨(split_text_bounds ("abcdefg".toList) 3 (by decide)).1,
   (split_text_bounds ("abcdefg".toList) 3 (by decide)).2.1⟩

/-- Witness for C7 at a concrete state: one request that waited from
time 1 to time 5, with empty history, yields average 4. -/
theorem avg_wait_time_update_witness :
    (get_next_request { initState 1 10 with queue := [⟨0, 1⟩] } 5).1.avg_wait_time
      = 5 - 1 :=
  (avg_wait_time_update { initState 1 10 with queue := [⟨0, 1⟩] } 5
    ⟨0, 1⟩ [] rfl).2 rfl

end ElayaBot
